import Mathlib

/-!
Verification of `pcap2vdif.py` (UDP-payload extraction from packet captures)
and `mock-dbe.py` (VDIF frame replay over UDP) against their natural-language
specification.

The Python sources are shallowly embedded: byte strings become `List Nat`,
Python dicts become insertion-ordered association lists (`dlookup`/`dinsert`
mirror dict lookup and `d[k] = v` assignment), a raised exception becomes
`none` in an `Option`-valued step function, and file writes become a log of
`Write` events recorded in the run state.
-/

/-- A Python `bytes`/`bytearray` value, one `Nat` per byte. -/
abbrev Bytes := List Nat

/-- An IP address as carried around by the scripts (the packed bytes that
`ipaddress.ip_address` was given, or that the decoder produced). -/
abbrev Addr := List Nat

/-- Rendering of an `ipaddress.IPv4Address` by `str()`/f-strings: the
dotted-quad form, one decimal number per byte. -/
def ipStr (a : Addr) : String :=
  String.intercalate "." (a.map toString)

/-- The flow-specific file stem built at both `write_vdif_file` call sites:
`f'{vdif_outfile_stem}_{src}_{dst}'`. -/
def flowStem (stem : String) (src dst : Addr) : String :=
  stem ++ "_" ++ ipStr src ++ "_" ++ ipStr dst

/-- One call to `write_vdif_file`: the `file_stem` and `frame_no` arguments
and the bytes written. -/
structure Write where
  file_stem : String
  frame_no  : Option Nat
  content   : Bytes
deriving DecidableEq

/-- The output file name `write_vdif_file` builds: the stem, then `_{frame_no}`
when a frame number was passed, then `.vdif` (source lines 145-148). -/
def Write.outname (w : Write) : String :=
  (match w.frame_no with
   | some n => w.file_stem ++ "_" ++ toString n
   | none   => w.file_stem) ++ ".vdif"

/-- The inner dict of `collected_frames`: destination address to buffer. -/
abbrev FlowDict := List (Addr × Bytes)

/-- The global `collected_frames` dict: source address to inner dict.
Association lists keep Python's dict insertion order. -/
abbrev CF := List (Addr × FlowDict)

/-- Python dict lookup `l[k]` as an option (`none` models `KeyError`). -/
def dlookup {β : Type} (k : Addr) : List (Addr × β) → Option β
  | [] => none
  | p :: rest => if p.1 = k then some p.2 else dlookup k rest

/-- Python dict assignment `l[k] = v`: replace in place if the key exists
(keeping its position), otherwise append at the end. -/
def dinsert {β : Type} (k : Addr) (v : β) : List (Addr × β) → List (Addr × β)
  | [] => [(k, v)]
  | p :: rest => if p.1 = k then (k, v) :: rest else p :: dinsert k v rest

/-- `collected_frames[src][dst]` as an option. -/
def lookup2 (cf : CF) (src dst : Addr) : Option Bytes :=
  (dlookup src cf).bind (fun inner => dlookup dst inner)

/-- Run state: the `collected_frames` dict plus the log of files written so
far, in write order. -/
structure St where
  cf     : CF
  writes : List Write
deriving DecidableEq

/-- `write_vdif_file(vdif_frames, file_stem, frame_no)` (source lines 143-151):
record a write of `vdif_frames` to the file named from `file_stem` and
`frame_no`. -/
def write_vdif_file (st : St) (vdif_frames : Bytes) (file_stem : String)
    (frame_no : Option Nat) : St :=
  ⟨st.cf, st.writes ++ [Write.mk file_stem frame_no vdif_frames]⟩

/-- The dict-updating core of `process_packet` (source lines 129-135):
if `src not in collected_frames`, install `{dst: bytearray()}` for it; then
`collected_frames[src][dst] += vdif_frame`.  Returns the new dict and the
buffer's new value, or `none` for the `KeyError` raised when `src` is present
but `dst` is not a key of the inner dict. -/
def appendFlow (src dst : Addr) (vdif_frame : Bytes) (cf : CF) :
    Option (CF × Bytes) :=
  let cf1 := if (dlookup src cf).isNone then dinsert src [(dst, [])] cf else cf
  match dlookup src cf1 with
  | none => none
  | some inner =>
    match dlookup dst inner with
    | none => none
    | some buf =>
      some (dinsert src (dinsert dst (buf ++ vdif_frame) inner) cf1,
            buf ++ vdif_frame)

/-- `process_packet(src, dst, vdif_frame, vdif_outfile_stem, file_per_frame,
packet_no)` (source lines 118-141): append the frame to the flow buffer and,
in per-record-file mode, write the buffer's current full contents to the
flow-and-record file. -/
def process_packet (src dst : Addr) (vdif_frame : Bytes) (stem : String)
    (file_per_frame : Bool) (packet_no : Option Nat) (st : St) : Option St :=
  match appendFlow src dst vdif_frame st.cf with
  | none => none
  | some (cf', buf') =>
    let st' : St := ⟨cf', st.writes⟩
    if file_per_frame then
      some (write_vdif_file st' buf' (flowStem stem src dst) packet_no)
    else
      some st'

/-- One capture record as the demultiplexer branch sees it: its link-layer
classification by `frame.protocol`, with the Ethernet case carrying the
decoded `(frame[IPv4].src, frame[IPv4].dst, frame[UDP].payload.data)` when
`UDP in frame`. -/
inductive Frame where
  | null (data : Bytes)
  | eth (udp : Option (Addr × Addr × Bytes))
  | other
deriving DecidableEq

/-- Python slice `data[a:b]`. -/
def pySlice (data : Bytes) (a b : Nat) : Bytes :=
  (data.drop a).take (b - a)

/-- Models `ipaddress.ip_address` applied to a bytes slice of length at most
four (the only shapes arising from the 4-byte slices in the source): it
yields an IPv4 address exactly when given exactly 4 bytes, and raises
`ValueError` (here `none`) otherwise. -/
def ip_address (b : Bytes) : Option Addr :=
  if b.length = 4 then some b else none

/-- The body of the demultiplexer loop for a single record (source lines
84-104): a `NULL` (loopback) record has its addresses read from fixed offsets
and its payload taken from offset 32; an Ethernet record with decodable UDP
uses the decoder's addresses and payload; anything else is skipped. -/
def demux_step (stem : String) (single_vdif : Bool) (frame_no : Nat)
    (f : Frame) (st : St) : Option St :=
  match f with
  | Frame.null data =>
    match ip_address (pySlice data (4+12) (4+16)),
          ip_address (pySlice data (4+16) (4+20)) with
    | some src, some dst =>
      process_packet src dst (data.drop (4+20+8)) stem (!single_vdif)
        (some frame_no) st
    | _, _ => none
  | Frame.eth (some (src, dst, payload)) =>
    process_packet src dst payload stem (!single_vdif) (some frame_no) st
  | _ => some st

/-- The window test guarding the demultiplexer branch (source lines 59-60 and
83): `all_packets or (frame_no in range(start_packet, end_packet))`, with
`end_packet = 0 if num_packets == 0 else start_packet + num_packets`. -/
def inWindow (start_packet num_packets frame_no : Nat) : Bool :=
  let all_packets := start_packet == 0 && num_packets == 0
  let end_packet := if num_packets == 0 then 0 else start_packet + num_packets
  all_packets ||
    (decide (start_packet ≤ frame_no) && decide (frame_no < end_packet))

/-- Run an indexed step function over a list, starting at index `i`, stopping
with `none` as soon as a step raises. -/
def runSteps {α : Type} (f : Nat → α → St → Option St) :
    Nat → List α → St → Option St
  | _, [], st => some st
  | i, x :: xs, st =>
    match f i x st with
    | none => none
    | some st2 => runSteps f (i + 1) xs st2

/-- One demultiplexer-branch iteration including the window test. -/
def demuxStepW (stem : String) (single_vdif : Bool)
    (start_packet num_packets : Nat) (frame_no : Nat) (f : Frame) (st : St) :
    Option St :=
  if inWindow start_packet num_packets frame_no then
    demux_step stem single_vdif frame_no f st
  else
    some st

/-- One completed IPv4 datagram as surfaced by `extraction.reassembly.ipv4`:
endpoint addresses from `dgram.id`, and `some payload` exactly when
`UDP in dgram.packet` (the payload being `dgram.packet.payload.data`). -/
structure Dgram where
  src : Addr
  dst : Addr
  udp : Option Bytes
deriving DecidableEq

/-- The body of the reassembly-branch loop for one datagram (source lines
72-79): UDP datagrams are recorded under the enumeration index `dgram_no`,
others fall through silently. -/
def reasmStep (stem : String) (single_vdif : Bool) (dgram_no : Nat)
    (d : Dgram) (st : St) : Option St :=
  match d.udp with
  | some payload =>
    process_packet d.src d.dst payload stem (!single_vdif) (some dgram_no) st
  | none => some st

/-- The reassembly branch: enumerate the completed datagrams from 0. -/
def reasmRun (stem : String) (single_vdif : Bool) (dgrams : List Dgram)
    (st : St) : Option St :=
  runSteps (reasmStep stem single_vdif) 0 dgrams st

/-- The command-line configuration of `pcap2vdif.py`: `-r` (disable
reassembly), `--start-packet`, `--num-packets`, `--single-vdif`. -/
structure Config where
  r : Bool
  start_packet : Nat
  num_packets : Nat
  single_vdif : Bool
deriving DecidableEq

/-- The demultiplexer branch: enumerate the capture records from 0, applying
the window test to each. -/
def demuxRun (stem : String) (cfg : Config) (frames : List Frame) (st : St) :
    Option St :=
  runSteps
    (demuxStepW stem cfg.single_vdif cfg.start_packet cfg.num_packets)
    0 frames st

/-- The end-of-run flush in `--single-vdif` mode (source lines 106-113): for
each source, then each destination, write the buffer once when it is
non-empty, to a file named without a record index. -/
def single_writes (stem : String) (cf : CF) : List Write :=
  (cf.map (fun p =>
    (p.2.filter (fun q => decide (0 < q.2.length))).map
      (fun q => Write.mk (flowStem stem p.1 q.1) none q.2))).flatten

/-- The tail of `main` after the branch: in `--single-vdif` mode append the
end-of-run flush writes. -/
def finishRun (stem : String) (single_vdif : Bool) (r : Option St) :
    Option St :=
  match r with
  | none => none
  | some st =>
    if single_vdif then some ⟨st.cf, st.writes ++ single_writes stem st.cf⟩
    else some st

/-- `main` from the branch dispatch onward (source lines 71-113): the
reassembly branch runs when `not args.r` and the reassembler produced at
least one completed IPv4 datagram, otherwise the demultiplexer branch runs;
then the single-file flush. -/
def mainRun (stem : String) (cfg : Config) (dgrams : List Dgram)
    (frames : List Frame) : Option St :=
  finishRun stem cfg.single_vdif
    (if (!cfg.r) && decide (0 < dgrams.length) then
       reasmRun stem cfg.single_vdif dgrams ⟨[], []⟩
     else
       demuxRun stem cfg frames ⟨[], []⟩)

/-- The content of the last write whose `file_stem` is `fs`, if any. -/
def lastContentFor (ws : List Write) (fs : String) : Option Bytes :=
  ((ws.filter (fun w => w.file_stem == fs)).getLast?).map Write.content

/-- The endpoint pairs present in a `collected_frames` dict, in iteration
order. -/
def flows (cf : CF) : List (Addr × Addr) :=
  (cf.map (fun p => p.2.map (fun q => (p.1, q.1)))).flatten

/-- Keys of an association list are pairwise distinct (true of every dict). -/
def KeysNodup {β : Type} (l : List (Addr × β)) : Prop :=
  l.Pairwise (fun p q => p.1 ≠ q.1)

/-- Well-formedness of `collected_frames`: outer and inner key sets are
duplicate-free, as for real Python dicts. -/
def CFok (cf : CF) : Prop :=
  KeysNodup cf ∧ ∀ p ∈ cf, KeysNodup p.2

/-! ## The replay side: `mock-dbe.py` -/

/-- The send loop of `mock-dbe.py` (source lines 55-57), after the structured
decode produced the declared frame lengths `lens`: from file position `pos`,
each iteration does `content = fh.read(n)` — Python file reads return at most
`n` bytes and advance the position by the number of bytes actually read — and
sends `content` as one datagram. -/
def replayAux (file : Bytes) : Nat → List Nat → List Bytes
  | _, [] => []
  | pos, n :: rest =>
    ((file.drop pos).take n) ::
      replayAux file (pos + ((file.drop pos).take n).length) rest

/-- The full replay: seek to 0 (source line 49), then send one datagram per
structured frame, of its declared `frame_nbytes`. -/
def replay (file : Bytes) (lens : List Nat) : List Bytes :=
  replayAux file 0 lens

/-- Modelled from the spec: the structured decode `fh.read_frameset()`
(source line 46) is performed by the external `baseband` library, which is
not part of this repository.  Per the spec, the decoder discovers each
frame's declared byte length from its structured header and a declared frame
length that would read past end-of-file makes the decode fail (the library
reads every returned frame's full declared bytes during decode, raising
`EOFError` on a short read).  With the headers' declared lengths `lens` as
input, the decoder hands them to the send loop exactly when the file covers
them, and raises (`none`) otherwise. -/
def read_frameset (file : Bytes) (lens : List Nat) : Option (List Nat) :=
  if lens.sum ≤ file.length then some lens else none

/-- The whole replay run of `mock-dbe.py` (source lines 44-57): the
structured decode runs first — a raised decode error aborts the run with
nothing sent — then the file position is reset and one datagram is sent per
declared frame length. -/
def mockDbeMain (file : Bytes) (lens : List Nat) : Option (List Bytes) :=
  match read_frameset file lens with
  | none => none
  | some ls => some (replay file ls)

/-! ## Association-list (Python dict) lemmas -/

theorem dlookup_dinsert {β : Type} (k k' : Addr) (v : β)
    (l : List (Addr × β)) :
    dlookup k' (dinsert k v l) = if k = k' then some v else dlookup k' l := by
  induction l with
  | nil =>
    simp only [dinsert, dlookup]
  | cons p rest ih =>
    by_cases hpk : p.1 = k
    · simp only [dinsert, hpk, if_pos rfl, dlookup]
      by_cases hkk : k = k'
      · simp [hkk]
      · have : p.1 ≠ k' := by rw [hpk]; exact hkk
        simp [hkk, this]
    · simp only [dinsert, if_neg hpk, dlookup]
      by_cases hpk' : p.1 = k'
      · have : k ≠ k' := by
          intro h; exact hpk (by rw [h, hpk'])
        simp [hpk', this]
      · simp [hpk', ih]

theorem dlookup_mem {β : Type} {k : Addr} {v : β} {l : List (Addr × β)}
    (h : dlookup k l = some v) : (k, v) ∈ l := by
  induction l with
  | nil => simp [dlookup] at h
  | cons p rest ih =>
    simp only [dlookup] at h
    by_cases hpk : p.1 = k
    · rw [if_pos hpk] at h
      cases h
      subst hpk
      simp
    · rw [if_neg hpk] at h
      exact List.mem_cons_of_mem _ (ih h)

theorem mem_dinsert {β : Type} {q : Addr × β} {k : Addr} {v : β}
    {l : List (Addr × β)} (h : q ∈ dinsert k v l) : q = (k, v) ∨ q ∈ l := by
  induction l with
  | nil => simp [dinsert] at h; simp [h]
  | cons p rest ih =>
    simp only [dinsert] at h
    by_cases hpk : p.1 = k
    · rw [if_pos hpk] at h
      rcases List.mem_cons.1 h with h1 | h1
      · exact Or.inl h1
      · exact Or.inr (List.mem_cons_of_mem _ h1)
    · rw [if_neg hpk] at h
      rcases List.mem_cons.1 h with h1 | h1
      · exact Or.inr (h1 ▸ List.mem_cons_self _ _)
      · rcases ih h1 with h2 | h2
        · exact Or.inl h2
        · exact Or.inr (List.mem_cons_of_mem _ h2)

theorem mem_dlookup {β : Type} {k : Addr} {v : β} {l : List (Addr × β)}
    (hn : KeysNodup l) (h : (k, v) ∈ l) : dlookup k l = some v := by
  induction l with
  | nil => simp at h
  | cons p rest ih =>
    rcases List.mem_cons.1 h with h1 | h1
    · simp [dlookup, ← h1]
    · have hk : p.1 ≠ k := by
        have := (List.pairwise_cons.1 hn).1 (k, v) h1
        simpa using this
      simp only [dlookup, if_neg hk]
      exact ih (List.pairwise_cons.1 hn).2 h1

theorem KeysNodup_dinsert {β : Type} {k : Addr} {v : β} {l : List (Addr × β)}
    (hn : KeysNodup l) : KeysNodup (dinsert k v l) := by
  induction l with
  | nil =>
    simp [dinsert, KeysNodup]
  | cons p rest ih =>
    rcases List.pairwise_cons.1 hn with ⟨hhead, htail⟩
    by_cases hpk : p.1 = k
    · simp only [dinsert, if_pos hpk]
      refine List.pairwise_cons.2 ⟨?_, htail⟩
      intro q hq
      have := hhead q hq
      rw [hpk] at this
      exact this
    · simp only [dinsert, if_neg hpk]
      refine List.pairwise_cons.2 ⟨?_, ih htail⟩
      intro q hq
      rcases mem_dinsert hq with h1 | h1
      · rw [h1]; exact hpk
      · exact hhead q h1

/-! ## `appendFlow` and `process_packet` characterizations -/

theorem appendFlow_new {src dst : Addr} {f : Bytes} {cf : CF}
    (hsrc : dlookup src cf = none) :
    appendFlow src dst f cf =
      some (dinsert src [(dst, f)] (dinsert src [(dst, [])] cf), f) := by
  simp [appendFlow, hsrc, dlookup_dinsert, dinsert, dlookup]

theorem appendFlow_old {src dst : Addr} {f : Bytes} {cf : CF}
    {inner : FlowDict} {buf : Bytes}
    (hsrc : dlookup src cf = some inner) (hdst : dlookup dst inner = some buf) :
    appendFlow src dst f cf =
      some (dinsert src (dinsert dst (buf ++ f) inner) cf, buf ++ f) := by
  simp [appendFlow, hsrc, hdst]

theorem appendFlow_keyerror {src dst : Addr} {f : Bytes} {cf : CF}
    {inner : FlowDict}
    (hsrc : dlookup src cf = some inner) (hdst : dlookup dst inner = none) :
    appendFlow src dst f cf = none := by
  simp [appendFlow, hsrc, hdst]

theorem appendFlow_spec {src dst : Addr} {f : Bytes} {cf cf' : CF} {b : Bytes}
    (h : appendFlow src dst f cf = some (cf', b)) :
    (∃ old, b = old ++ f ∧
      (lookup2 cf src dst = some old ∨ (dlookup src cf = none ∧ old = []))) ∧
    lookup2 cf' src dst = some b ∧
    (∀ s' d', ¬(s' = src ∧ d' = dst) → lookup2 cf' s' d' = lookup2 cf s' d') ∧
    (CFok cf → CFok cf') := by
  cases hsrc : dlookup src cf with
  | none =>
    rw [appendFlow_new hsrc] at h
    simp only [Option.some.injEq, Prod.mk.injEq] at h
    obtain ⟨hcf', hb⟩ := h
    subst hcf'
    subst hb
    refine ⟨⟨[], rfl, Or.inr ⟨rfl, rfl⟩⟩, ?_, ?_, ?_⟩
    · simp [lookup2, dlookup_dinsert, dlookup]
    · intro s' d' hne
      by_cases hs : s' = src
      · subst hs
        have hd : dst ≠ d' := fun hd => hne ⟨rfl, hd.symm⟩
        simp [lookup2, dlookup_dinsert, hsrc, dlookup, if_neg hd]
      · have hs' : src ≠ s' := fun hh => hs hh.symm
        simp [lookup2, dlookup_dinsert, if_neg hs']
    · rintro ⟨houter, hinner⟩
      refine ⟨KeysNodup_dinsert (KeysNodup_dinsert houter), ?_⟩
      intro p hp
      rcases mem_dinsert hp with h1 | h1
      · rw [h1]
        simp [KeysNodup]
      · rcases mem_dinsert h1 with h2 | h2
        · rw [h2]
          simp [KeysNodup]
        · exact hinner p h2
  | some inner =>
    cases hdst : dlookup dst inner with
    | none =>
      rw [appendFlow_keyerror hsrc hdst] at h
      simp at h
    | some buf =>
      rw [appendFlow_old hsrc hdst] at h
      simp only [Option.some.injEq, Prod.mk.injEq] at h
      obtain ⟨hcf', hb⟩ := h
      subst hcf'
      subst hb
      refine ⟨⟨buf, rfl, Or.inl (by simp [lookup2, hsrc, hdst])⟩, ?_, ?_, ?_⟩
      · simp [lookup2, dlookup_dinsert]
      · intro s' d' hne
        by_cases hs : s' = src
        · subst hs
          have hd : dst ≠ d' := fun hd => hne ⟨rfl, hd.symm⟩
          simp [lookup2, dlookup_dinsert, hsrc, if_neg hd]
        · have hs' : src ≠ s' := fun hh => hs hh.symm
          simp [lookup2, dlookup_dinsert, if_neg hs']
      · rintro ⟨houter, hinner⟩
        refine ⟨KeysNodup_dinsert houter, ?_⟩
        intro p hp
        rcases mem_dinsert hp with h1 | h1
        · rw [h1]
          exact KeysNodup_dinsert (hinner (src, inner) (dlookup_mem hsrc))
        · exact hinner p h1

/-- `process_packet` is `appendFlow` on the dict plus, in per-record mode,
one appended write of the buffer's new contents. -/
theorem process_packet_eq (src dst : Addr) (f : Bytes) (stem : String)
    (fpf : Bool) (no : Option Nat) (st : St) :
    process_packet src dst f stem fpf no st =
      (appendFlow src dst f st.cf).map (fun q =>
        ⟨q.1, st.writes ++
          (if fpf then [Write.mk (flowStem stem src dst) no q.2] else [])⟩) := by
  cases fpf <;> cases hA : appendFlow src dst f st.cf <;>
    simp [process_packet, hA, write_vdif_file]

/-! ## Shapes of the loop bodies and generic facts about `runSteps` -/

/-- Every loop body of `main` either leaves the state untouched (a skipped
record) or is one `process_packet` call at the loop's index. -/
def StepShape {α : Type} (stem : String) (fpf : Bool)
    (f : Nat → α → St → Option St) : Prop :=
  ∀ i x st r, f i x st = some r →
    r = st ∨ ∃ s d p, process_packet s d p stem fpf (some i) st = some r

theorem demux_step_shape (stem : String) (single_vdif : Bool) (i : Nat)
    (x : Frame) (st r : St) (h : demux_step stem single_vdif i x st = some r) :
    r = st ∨
      ∃ s d p, process_packet s d p stem (!single_vdif) (some i) st = some r := by
  cases x with
  | null data =>
    simp only [demux_step] at h
    cases h1 : ip_address (pySlice data (4+12) (4+16)) with
    | none => rw [h1] at h; simp at h
    | some src =>
      cases h2 : ip_address (pySlice data (4+16) (4+20)) with
      | none => rw [h1, h2] at h; simp at h
      | some dst =>
        rw [h1, h2] at h
        exact Or.inr ⟨src, dst, data.drop (4+20+8), h⟩
  | eth udp =>
    cases udp with
    | none =>
      simp only [demux_step] at h
      exact Or.inl (Option.some.inj h).symm
    | some t =>
      obtain ⟨src, dst, payload⟩ := t
      simp only [demux_step] at h
      exact Or.inr ⟨src, dst, payload, h⟩
  | other =>
    simp only [demux_step] at h
    exact Or.inl (Option.some.inj h).symm

theorem demuxStepW_shape (stem : String) (single_vdif : Bool)
    (sp np : Nat) :
    StepShape stem (!single_vdif) (demuxStepW stem single_vdif sp np) := by
  intro i x st r h
  simp only [demuxStepW] at h
  by_cases hw : inWindow sp np i = true
  · rw [if_pos hw] at h
    exact demux_step_shape stem single_vdif i x st r h
  · rw [if_neg hw] at h
    exact Or.inl (Option.some.inj h).symm

theorem reasmStep_shape (stem : String) (single_vdif : Bool) :
    StepShape stem (!single_vdif) (reasmStep stem single_vdif) := by
  intro i x st r h
  cases hu : x.udp with
  | none =>
    simp only [reasmStep, hu] at h
    exact Or.inl (Option.some.inj h).symm
  | some payload =>
    simp only [reasmStep, hu] at h
    exact Or.inr ⟨x.src, x.dst, payload, h⟩

/-- The dict after a successful `process_packet`: the target flow's buffer
grew by the frame, every other flow's buffer is untouched. -/
theorem process_packet_some {src dst : Addr} {p : Bytes} {stem : String}
    {fpf : Bool} {no : Option Nat} {st r : St}
    (h : process_packet src dst p stem fpf no st = some r) :
    ∃ b, lookup2 r.cf src dst = some b ∧
      r.writes = st.writes ++
        (if fpf then [Write.mk (flowStem stem src dst) no b] else []) ∧
      (∃ old, b = old ++ p ∧
        (lookup2 st.cf src dst = some old ∨
          (dlookup src st.cf = none ∧ old = []))) ∧
      (∀ s' d', ¬(s' = src ∧ d' = dst) →
        lookup2 r.cf s' d' = lookup2 st.cf s' d') ∧
      (CFok st.cf → CFok r.cf) := by
  rw [process_packet_eq] at h
  cases hA : appendFlow src dst p st.cf with
  | none => rw [hA] at h; simp at h
  | some q =>
    rw [hA] at h
    simp only [Option.map_some', Option.some.injEq] at h
    obtain ⟨cf', b⟩ := q
    obtain spec := appendFlow_spec hA
    refine ⟨b, ?_, ?_, spec.1, ?_, ?_⟩
    · rw [← h]; exact spec.2.1
    · rw [← h]
    · intro s' d' hne
      rw [← h]
      exact spec.2.2.1 s' d' hne
    · rw [← h]
      exact spec.2.2.2

theorem process_packet_mono {src dst : Addr} {p : Bytes} {stem : String}
    {fpf : Bool} {no : Option Nat} {st r : St}
    (h : process_packet src dst p stem fpf no st = some r)
    (s d : Addr) (b : Bytes) (hl : lookup2 st.cf s d = some b) :
    ∃ b', lookup2 r.cf s d = some b' := by
  obtain ⟨bn, h1, _, _, h4, _⟩ := process_packet_some h
  by_cases hsd : s = src ∧ d = dst
  · obtain ⟨hs, hd⟩ := hsd
    subst hs
    subst hd
    exact ⟨bn, h1⟩
  · exact ⟨b, by rw [h4 s d hsd]; exact hl⟩

theorem runSteps_mono {α : Type} {stem : String} {fpf : Bool}
    {f : Nat → α → St → Option St} (hf : StepShape stem fpf f) :
    ∀ (l : List α) (i : Nat) (st st' : St), runSteps f i l st = some st' →
      ∀ s d b, lookup2 st.cf s d = some b →
        ∃ b', lookup2 st'.cf s d = some b' := by
  intro l
  induction l with
  | nil =>
    intro i st st' h s d b hl
    simp only [runSteps, Option.some.injEq] at h
    exact ⟨b, by rw [← h]; exact hl⟩
  | cons x xs ih =>
    intro i st st' h s d b hl
    cases hstep : f i x st with
    | none => rw [runSteps, hstep] at h; simp at h
    | some st₁ =>
      rw [runSteps, hstep] at h
      rcases hf i x st st₁ hstep with heq | ⟨s₀, d₀, p₀, hpp⟩
      · subst heq
        exact ih (i+1) _ st' h s d b hl
      · obtain ⟨b₁, hb₁⟩ := process_packet_mono hpp s d b hl
        exact ih (i+1) st₁ st' h s d b₁ hb₁

theorem runSteps_cfok {α : Type} {stem : String} {fpf : Bool}
    {f : Nat → α → St → Option St} (hf : StepShape stem fpf f) :
    ∀ (l : List α) (i : Nat) (st st' : St), runSteps f i l st = some st' →
      CFok st.cf → CFok st'.cf := by
  intro l
  induction l with
  | nil =>
    intro i st st' h hok
    simp only [runSteps, Option.some.injEq] at h
    rw [← h]
    exact hok
  | cons x xs ih =>
    intro i st st' h hok
    cases hstep : f i x st with
    | none => rw [runSteps, hstep] at h; simp at h
    | some st₁ =>
      rw [runSteps, hstep] at h
      rcases hf i x st st₁ hstep with heq | ⟨s₀, d₀, p₀, hpp⟩
      · subst heq
        exact ih (i+1) _ st' h hok
      · obtain ⟨bn, _, _, _, _, hok'⟩ := process_packet_some hpp
        exact ih (i+1) st₁ st' h (hok' hok)

theorem runSteps_writes {α : Type} {f : Nat → α → St → Option St}
    (hf : ∀ i x st st', f i x st = some st' → st'.writes = st.writes) :
    ∀ (l : List α) (i : Nat) (st st' : St), runSteps f i l st = some st' →
      st'.writes = st.writes := by
  intro l
  induction l with
  | nil =>
    intro i st st' h
    simp only [runSteps, Option.some.injEq] at h
    rw [← h]
  | cons x xs ih =>
    intro i st st' h
    cases hstep : f i x st with
    | none => rw [runSteps, hstep] at h; simp at h
    | some st₁ =>
      rw [runSteps, hstep] at h
      rw [ih (i+1) st₁ st' h, hf i x st st₁ hstep]

/-! ## Pairing the two output modes: the dict evolves identically -/

/-- Two run outcomes agree up to the write log: both raised, or both
succeeded with the same `collected_frames` dict. -/
def cfRel (x y : Option St) : Prop :=
  (x = none ∧ y = none) ∨ ∃ a b, x = some a ∧ y = some b ∧ a.cf = b.cf

theorem process_packet_pair {st₁ st₂ : St} (hcf : st₁.cf = st₂.cf)
    (src dst : Addr) (p : Bytes) (stem : String) (f₁ f₂ : Bool)
    (n₁ n₂ : Option Nat) :
    cfRel (process_packet src dst p stem f₁ n₁ st₁)
          (process_packet src dst p stem f₂ n₂ st₂) := by
  rw [process_packet_eq, process_packet_eq, hcf]
  cases appendFlow src dst p st₂.cf with
  | none => exact Or.inl ⟨rfl, rfl⟩
  | some q => exact Or.inr ⟨_, _, rfl, rfl, rfl⟩

theorem demux_step_pair {st₁ st₂ : St} (hcf : st₁.cf = st₂.cf)
    (stem : String) (b₁ b₂ : Bool) (i : Nat) (x : Frame) :
    cfRel (demux_step stem b₁ i x st₁) (demux_step stem b₂ i x st₂) := by
  cases x with
  | null data =>
    simp only [demux_step]
    cases h1 : ip_address (pySlice data (4+12) (4+16)) with
    | none => exact Or.inl ⟨rfl, rfl⟩
    | some src =>
      cases h2 : ip_address (pySlice data (4+16) (4+20)) with
      | none => exact Or.inl ⟨rfl, rfl⟩
      | some dst => exact process_packet_pair hcf _ _ _ _ _ _ _ _
  | eth udp =>
    cases udp with
    | none => exact Or.inr ⟨st₁, st₂, rfl, rfl, hcf⟩
    | some t =>
      obtain ⟨src, dst, payload⟩ := t
      exact process_packet_pair hcf _ _ _ _ _ _ _ _
  | other => exact Or.inr ⟨st₁, st₂, rfl, rfl, hcf⟩

theorem demuxStepW_pair {st₁ st₂ : St} (hcf : st₁.cf = st₂.cf)
    (stem : String) (b₁ b₂ : Bool) (sp np i : Nat) (x : Frame) :
    cfRel (demuxStepW stem b₁ sp np i x st₁)
          (demuxStepW stem b₂ sp np i x st₂) := by
  simp only [demuxStepW]
  by_cases hw : inWindow sp np i = true
  · rw [if_pos hw, if_pos hw]
    exact demux_step_pair hcf stem b₁ b₂ i x
  · rw [if_neg hw, if_neg hw]
    exact Or.inr ⟨st₁, st₂, rfl, rfl, hcf⟩

theorem reasmStep_pair {st₁ st₂ : St} (hcf : st₁.cf = st₂.cf)
    (stem : String) (b₁ b₂ : Bool) (i : Nat) (x : Dgram) :
    cfRel (reasmStep stem b₁ i x st₁) (reasmStep stem b₂ i x st₂) := by
  simp only [reasmStep]
  cases x.udp with
  | none => exact Or.inr ⟨st₁, st₂, rfl, rfl, hcf⟩
  | some payload => exact process_packet_pair hcf _ _ _ _ _ _ _ _

theorem runSteps_pair {α : Type} {f g : Nat → α → St → Option St}
    (hfg : ∀ i x st₁ st₂, st₁.cf = st₂.cf → cfRel (f i x st₁) (g i x st₂)) :
    ∀ (l : List α) (i : Nat) (st₁ st₂ : St), st₁.cf = st₂.cf →
      cfRel (runSteps f i l st₁) (runSteps g i l st₂) := by
  intro l
  induction l with
  | nil =>
    intro i st₁ st₂ h
    exact Or.inr ⟨st₁, st₂, rfl, rfl, h⟩
  | cons x xs ih =>
    intro i st₁ st₂ h
    rcases hfg i x st₁ st₂ h with ⟨h1, h2⟩ | ⟨a, b, h1, h2, h3⟩
    · rw [runSteps, h1, runSteps, h2]
      exact Or.inl ⟨rfl, rfl⟩
    · rw [runSteps, h1, runSteps, h2]
      exact ih (i+1) a b h3

/-! ## The last write per flow stem -/

theorem lastContentFor_append_hit (ws : List Write) (w : Write) :
    lastContentFor (ws ++ [w]) w.file_stem = some w.content := by
  simp only [lastContentFor, List.filter_append]
  have : List.filter (fun v => v.file_stem == w.file_stem) [w] = [w] := by
    simp
  rw [this, List.getLast?_concat]
  rfl

theorem lastContentFor_append_miss (ws : List Write) (w : Write) (fs : String)
    (h : w.file_stem ≠ fs) :
    lastContentFor (ws ++ [w]) fs = lastContentFor ws fs := by
  simp only [lastContentFor, List.filter_append]
  have : List.filter (fun v => v.file_stem == fs) [w] = [] := by
    simp [h]
  rw [this, List.append_nil]

theorem lastContentFor_append_nil (ws : List Write) (fs : String) :
    lastContentFor (ws ++ []) fs = lastContentFor ws fs := by
  rw [List.append_nil]

/-! ## Flow keys present in the dict -/

theorem mem_flows_of_lookup2 {cf : CF} {s d : Addr} {b : Bytes}
    (h : lookup2 cf s d = some b) : (s, d) ∈ flows cf := by
  simp only [lookup2] at h
  cases hsrc : dlookup s cf with
  | none => rw [hsrc] at h; simp at h
  | some inner =>
    rw [hsrc] at h
    simp only [Option.some_bind] at h
    have m1 : (s, inner) ∈ cf := dlookup_mem hsrc
    have m2 : (d, b) ∈ inner := dlookup_mem h
    simp only [flows, List.mem_flatten]
    refine ⟨inner.map (fun q => (s, q.1)), ?_, ?_⟩
    · exact List.mem_map.2 ⟨(s, inner), m1, rfl⟩
    · exact List.mem_map.2 ⟨(d, b), m2, rfl⟩

/-- No two distinct flows of the dict collide on their output file stem. -/
def FlowInj (stem : String) (cf : CF) : Prop :=
  ∀ s d s' d' b b', lookup2 cf s d = some b → lookup2 cf s' d' = some b' →
    flowStem stem s d = flowStem stem s' d' → s = s' ∧ d = d'

theorem FlowInj_of_pairwise {stem : String} {cf : CF}
    (h : (flows cf).Pairwise
      (fun p q => flowStem stem p.1 p.2 = flowStem stem q.1 q.2 → p = q)) :
    FlowInj stem cf := by
  intro s d s' d' b b' h1 h2 heq
  have m1 : (s, d) ∈ flows cf := mem_flows_of_lookup2 h1
  have m2 : (s', d') ∈ flows cf := mem_flows_of_lookup2 h2
  by_cases hpq : (s, d) = (s', d')
  · exact ⟨congrArg Prod.fst hpq, congrArg Prod.snd hpq⟩
  · have hsymm : Symmetric
        (fun (p q : Addr × Addr) =>
          flowStem stem p.1 p.2 = flowStem stem q.1 q.2 → p = q) := by
      intro p q hpq hexp
      exact (hpq hexp.symm).symm
    have := h.forall hsymm m1 m2 hpq heq
    exact ⟨congrArg Prod.fst this, congrArg Prod.snd this⟩

/-! ## The per-record-mode invariant: the last write per flow stem is the
flow's current buffer -/

/-- Invariant of per-record mode: each flow's buffer equals the content of
the last write carrying that flow's file stem. -/
def Pinv (stem : String) (st : St) : Prop :=
  ∀ s d b, lookup2 st.cf s d = some b →
    lastContentFor st.writes (flowStem stem s d) = some b

theorem runSteps_lastwrite {α : Type} {stem : String}
    {f : Nat → α → St → Option St} (hshape : StepShape stem true f) :
    ∀ (l : List α) (i : Nat) (st stF : St), runSteps f i l st = some stF →
      FlowInj stem stF.cf → Pinv stem st → Pinv stem stF := by
  intro l
  induction l with
  | nil =>
    intro i st stF h hinj hP
    simp only [runSteps, Option.some.injEq] at h
    rw [← h]
    exact hP
  | cons x xs ih =>
    intro i st stF h hinj hP
    cases hstep : f i x st with
    | none => rw [runSteps, hstep] at h; simp at h
    | some st₁ =>
      rw [runSteps, hstep] at h
      refine ih (i+1) st₁ stF h hinj ?_
      rcases hshape i x st st₁ hstep with heq | ⟨s₀, d₀, p₀, hpp⟩
      · subst heq
        exact hP
      · obtain ⟨b₀, hb₀, hw₀, _, hother, _⟩ := process_packet_some hpp
        rw [if_pos rfl] at hw₀
        intro s d b hl
        by_cases hsd : s = s₀ ∧ d = d₀
        · obtain ⟨hs, hd⟩ := hsd
          subst hs
          subst hd
          have hbb : b = b₀ := by
            rw [hl] at hb₀
            exact Option.some.inj hb₀
          subst hbb
          rw [hw₀]
          exact lastContentFor_append_hit st.writes
            (Write.mk (flowStem stem s d) (some i) b)
        · have hlst : lookup2 st.cf s d = some b := by
            rw [← hother s d hsd]
            exact hl
          have hne : (Write.mk (flowStem stem s₀ d₀) (some i) b₀).file_stem ≠
              flowStem stem s d := by
            intro hcontr
            obtain ⟨bF, hbF⟩ := runSteps_mono hshape xs (i+1) st₁ stF h s d b hl
            obtain ⟨bF', hbF'⟩ := runSteps_mono hshape xs (i+1) st₁ stF h s₀ d₀
              b₀ hb₀
            obtain ⟨hs, hd⟩ := hinj s₀ d₀ s d bF' bF hbF' hbF hcontr
            exact hsd ⟨hs.symm, hd.symm⟩
          rw [hw₀, lastContentFor_append_miss st.writes _ _ hne]
          exact hP s d b hlst

/-! ## Membership in the single-file flush -/

theorem mem_single_writes {stem : String} {cf : CF} {w : Write}
    (hok : CFok cf) (hw : w ∈ single_writes stem cf) :
    ∃ s d b, lookup2 cf s d = some b ∧ b ≠ [] ∧
      w = Write.mk (flowStem stem s d) none b := by
  simp only [single_writes, List.mem_flatten] at hw
  obtain ⟨l, hl, hwl⟩ := hw
  rw [List.mem_map] at hl
  obtain ⟨p, hp, rfl⟩ := hl
  rw [List.mem_map] at hwl
  obtain ⟨q, hq, rfl⟩ := hwl
  rw [List.mem_filter] at hq
  obtain ⟨hq1, hq2⟩ := hq
  refine ⟨p.1, q.1, q.2, ?_, ?_, rfl⟩
  · have h1 : dlookup p.1 cf = some p.2 := mem_dlookup hok.1 (by simpa using hp)
    have h2 : dlookup q.1 p.2 = some q.2 :=
      mem_dlookup (hok.2 p hp) (by simpa using hq1)
    simp [lookup2, h1, h2]
  · have : 0 < q.2.length := by simpa using hq2
    exact List.ne_nil_of_length_pos this

/-! ## Unfolding the end of `main` -/

theorem finishRun_true {stem : String} {r : Option St} {st' : St}
    (h : finishRun stem true r = some st') :
    ∃ st₀, r = some st₀ ∧
      st' = ⟨st₀.cf, st₀.writes ++ single_writes stem st₀.cf⟩ := by
  cases r with
  | none => simp [finishRun] at h
  | some st₀ =>
    exact ⟨st₀, rfl, (Option.some.inj h).symm⟩

theorem finishRun_false {stem : String} {r : Option St} {st' : St}
    (h : finishRun stem false r = some st') : r = some st' := by
  cases r with
  | none => simp [finishRun] at h
  | some st₀ =>
    rw [Option.some.inj h]

/-! ## Replay lemmas -/

theorem replayAux_length (file : Bytes) :
    ∀ (lens : List Nat) (pos : Nat),
      (replayAux file pos lens).length = lens.length := by
  intro lens
  induction lens with
  | nil => intro pos; rfl
  | cons n rest ih =>
    intro pos
    simp only [replayAux, List.length_cons, ih]

theorem sum_take_getD_le :
    ∀ (lens : List Nat) (i : Nat), i < lens.length →
      (lens.take i).sum + lens.getD i 0 ≤ lens.sum := by
  intro lens
  induction lens with
  | nil => intro i h; simp at h
  | cons n rest ih =>
    intro i h
    cases i with
    | zero => simp [List.getD]
    | succ i =>
      have hi : i < rest.length := by simpa using h
      have := ih i hi
      simp only [List.take_succ_cons, List.sum_cons, List.getD_cons_succ]
      omega

theorem replayAux_getD (file : Bytes) :
    ∀ (lens : List Nat) (pos i : Nat), pos + lens.sum ≤ file.length →
      i < lens.length →
      (replayAux file pos lens).getD i [] =
        (file.drop (pos + (lens.take i).sum)).take (lens.getD i 0) := by
  intro lens
  induction lens with
  | nil => intro pos i _ h; simp at h
  | cons n rest ih =>
    intro pos i hsum hi
    have hlen : ((file.drop pos).take n).length = n := by
      rw [List.length_take, List.length_drop]
      simp only [List.sum_cons] at hsum
      omega
    cases i with
    | zero =>
      simp [replayAux, List.getD]
    | succ i =>
      have hi' : i < rest.length := by simpa using hi
      have hsum' : (pos + n) + rest.sum ≤ file.length := by
        simp only [List.sum_cons] at hsum
        omega
      simp only [replayAux, hlen, List.getD_cons_succ, List.take_succ_cons,
        List.sum_cons]
      rw [ih (pos + n) i hsum' hi']
      congr 2
      omega

/-! ## The loopback/null extraction -/

/-- For a `NULL` record of at least 24 bytes both address conversions
succeed, and the demultiplexer behaves as one `process_packet` call on the
fixed-offset slices.  (Shorter records make `ipaddress.ip_address` raise.) -/
theorem demux_null_eq {data : Bytes} (h24 : 24 ≤ data.length)
    (stem : String) (sv : Bool) (i : Nat) (st : St) :
    demux_step stem sv i (Frame.null data) st =
      process_packet ((data.drop 16).take 4) ((data.drop 20).take 4)
        (data.drop 32) stem (!sv) (some i) st := by
  have hs : pySlice data (4+12) (4+16) = (data.drop 16).take 4 := by
    simp [pySlice]
  have hd : pySlice data (4+16) (4+20) = (data.drop 20).take 4 := by
    simp [pySlice]
  have hls : ((data.drop 16).take 4).length = 4 := by
    rw [List.length_take, List.length_drop]
    omega
  have hld : ((data.drop 20).take 4).length = 4 := by
    rw [List.length_take, List.length_drop]
    omega
  have h1 : ip_address (pySlice data (4+12) (4+16)) =
      some ((data.drop 16).take 4) := by
    rw [hs]
    simp [ip_address, hls]
  have h2 : ip_address (pySlice data (4+16) (4+20)) =
      some ((data.drop 20).take 4) := by
    rw [hd]
    simp [ip_address, hld]
  simp only [demux_step, h1, h2]

/-! ## Claim theorems -/

/-- C1: the claim says `record(src, dst, payload, idx)` appends the payload
to the buffer for exactly the key `(src, dst)`, creating it when absent, for
every payload sequence — including a source seen with two destinations.  The
code instead raises `KeyError` on the second destination of an
already-known source: here the first call succeeds, and the second call —
same source `10.0.0.1`, new destination `10.0.0.3` — evaluates to `none`
(the modelled `KeyError`) instead of creating the buffer. -/
theorem C1_keyerror :
    process_packet [10,0,0,1] [10,0,0,2] [1] "cap" true (some 0)
        (St.mk [] []) =
      some (St.mk [([10,0,0,1], [([10,0,0,2], [1])])]
        [Write.mk (flowStem "cap" [10,0,0,1] [10,0,0,2]) (some 0) [1]]) ∧
    process_packet [10,0,0,1] [10,0,0,3] [2] "cap" true (some 1)
        (St.mk [([10,0,0,1], [([10,0,0,2], [1])])]
          [Write.mk (flowStem "cap" [10,0,0,1] [10,0,0,2]) (some 0) [1]]) =
      none :=
  ⟨rfl, rfl⟩

/-- C2: the claim (and the CLI help text `0=all packets from start packet`)
says `--start-packet=N --num-packets=0` extracts every record from index N
on.  But the code computes `end_packet = 0` when `num_packets == 0`, so the
window `range(N, 0)` is empty for `N > 0`: no index is in the window, and a
run with `N=1, K=0` over a two-record capture (whose record 1 is a decodable
Ethernet/UDP record) produces no flow state and no writes at all. -/
theorem C2_window_bug :
    (∀ i, inWindow 1 0 i = false) ∧
    mainRun "cap" (Config.mk true 1 0 false) []
        [Frame.other, Frame.eth (some ([1], [2], [9]))] =
      some (St.mk [] []) := by
  constructor
  · intro i
    simp [inWindow]
  · rfl

/-- C3 (amended): for every loopback/null record **of at least 24 bytes**,
the demultiplexer reads the source address from bytes 16..19 and the
destination from bytes 20..23 of the link payload and recovers as UDP
payload the bytes from offset 32 on, with no validation of header contents;
equivalently, for a record framed as 4-byte link header ++ 20-byte IPv4
header ++ 8-byte UDP header ++ payload, it recovers exactly the payload and
the addresses at IPv4-header offsets 12..15 and 16..19.  (Records shorter
than 24 bytes instead raise `ValueError` in `ipaddress.ip_address` — see the
counterexample.) -/
theorem C3_null_offsets :
    (∀ (data : Bytes) (stem : String) (sv : Bool) (i : Nat) (st : St),
      24 ≤ data.length →
      demux_step stem sv i (Frame.null data) st =
        process_packet ((data.drop 16).take 4) ((data.drop 20).take 4)
          (data.drop 32) stem (!sv) (some i) st) ∧
    (∀ (l ih uh p : Bytes) (stem : String) (sv : Bool) (i : Nat) (st : St),
      l.length = 4 → ih.length = 20 → uh.length = 8 →
      demux_step stem sv i (Frame.null (l ++ ih ++ uh ++ p)) st =
        process_packet ((ih.drop 12).take 4) ((ih.drop 16).take 4) p stem
          (!sv) (some i) st) := by
  constructor
  · intro data stem sv i st h24
    exact demux_null_eq h24 stem sv i st
  · intro l ih uh p stem sv i st hl hih huh
    have h24 : 24 ≤ (l ++ ih ++ uh ++ p).length := by
      simp only [List.length_append, hl, hih, huh]
      omega
    rw [demux_null_eq h24 stem sv i st]
    have e1 : (l ++ ih ++ uh ++ p).drop 16 = ih.drop 12 ++ (uh ++ p) := by
      have hsplit : l ++ ih ++ uh ++ p =
          (l ++ ih.take 12) ++ (ih.drop 12 ++ (uh ++ p)) := by
        conv_lhs => rw [← List.take_append_drop 12 ih]
        simp only [List.append_assoc]
      have hlen : (l ++ ih.take 12).length = 16 := by
        simp only [List.length_append, List.length_take, hl, hih]
        omega
      rw [hsplit]
      exact List.drop_left' hlen
    have e2 : (l ++ ih ++ uh ++ p).drop 20 = ih.drop 16 ++ (uh ++ p) := by
      have hsplit : l ++ ih ++ uh ++ p =
          (l ++ ih.take 16) ++ (ih.drop 16 ++ (uh ++ p)) := by
        conv_lhs => rw [← List.take_append_drop 16 ih]
        simp only [List.append_assoc]
      have hlen : (l ++ ih.take 16).length = 20 := by
        simp only [List.length_append, List.length_take, hl, hih]
        omega
      rw [hsplit]
      exact List.drop_left' hlen
    have e3 : (l ++ ih ++ uh ++ p).drop 32 = p := by
      have hsplit : l ++ ih ++ uh ++ p = (l ++ (ih ++ uh)) ++ p := by
        simp only [List.append_assoc]
      have hlen : (l ++ (ih ++ uh)).length = 32 := by
        simp only [List.length_append, hl, hih, huh]
      rw [hsplit]
      exact List.drop_left' hlen
    have e1t : ((l ++ ih ++ uh ++ p).drop 16).take 4 = (ih.drop 12).take 4 := by
      rw [e1]
      have hsplit : ih.drop 12 ++ (uh ++ p) =
          ((ih.drop 12).take 4) ++ ((ih.drop 12).drop 4 ++ (uh ++ p)) := by
        conv_lhs => rw [← List.take_append_drop 4 (ih.drop 12)]
        simp only [List.append_assoc]
      have hlen : ((ih.drop 12).take 4).length = 4 := by
        simp only [List.length_take, List.length_drop, hih]
        omega
      rw [hsplit]
      exact List.take_left' hlen
    have e2t : ((l ++ ih ++ uh ++ p).drop 20).take 4 = (ih.drop 16).take 4 := by
      rw [e2]
      have hsplit : ih.drop 16 ++ (uh ++ p) =
          ((ih.drop 16).take 4) ++ ((ih.drop 16).drop 4 ++ (uh ++ p)) := by
        conv_lhs => rw [← List.take_append_drop 4 (ih.drop 16)]
        simp only [List.append_assoc]
      have hlen : ((ih.drop 16).take 4).length = 4 := by
        simp only [List.length_take, List.length_drop, hih]
        omega
      rw [hsplit]
      exact List.take_left' hlen
    rw [e1t, e2t, e3]

/-- C3 counterexample: the claim as stated covers *every* loopback/null
record with no validation, but a record whose link payload is empty makes
the source-address conversion raise `ValueError`: the demultiplexer step
evaluates to `none` instead of recording the (empty) offset-32 payload as
`process_packet` on the slices would. -/
theorem C3_short_record :
    ¬(demux_step "c" false 0 (Frame.null []) (St.mk [] []) =
      process_packet ((([] : Bytes).drop 16).take 4)
        ((([] : Bytes).drop 20).take 4) (([] : Bytes).drop 32) "c" (!false)
        (some 0) (St.mk [] [])) := by
  decide

/-- C3 witness: the amended theorem applied at a concrete 33-byte record and
at a concrete structured record. -/
theorem C3_null_witness :
    (demux_step "c" false 0 (Frame.null (List.replicate 33 0)) (St.mk [] []) =
      process_packet (((List.replicate 33 0 : Bytes).drop 16).take 4)
        (((List.replicate 33 0 : Bytes).drop 20).take 4)
        ((List.replicate 33 0 : Bytes).drop 32) "c" (!false) (some 0)
        (St.mk [] [])) ∧
    (demux_step "d" true 1
        (Frame.null (List.replicate 4 0 ++ List.replicate 20 1 ++
          List.replicate 8 2 ++ [9, 9])) (St.mk [] []) =
      process_packet (((List.replicate 20 1 : Bytes).drop 12).take 4)
        (((List.replicate 20 1 : Bytes).drop 16).take 4) [9, 9] "d" (!true)
        (some 1) (St.mk [] [])) :=
  ⟨C3_null_offsets.1 (List.replicate 33 0) "c" false 0 (St.mk [] [])
      (by decide),
   C3_null_offsets.2 (List.replicate 4 0) (List.replicate 20 1)
      (List.replicate 8 2) [9, 9] "d" true 1 (St.mk [] []) (by decide)
      (by decide) (by decide)⟩

/-- C4: when the structured decode yields frames of declared lengths `lens`
(so the file covers them: `lens.sum ≤ file.length`), the replayer sends
exactly `lens.length` datagrams in frame order, the `i`-th being exactly the
raw file bytes from offset `(lens.take i).sum` for `lens[i]` bytes, and of
size `lens[i]`. -/
theorem C4_replay {file : Bytes} {lens : List Nat}
    (h : lens.sum ≤ file.length) :
    (replay file lens).length = lens.length ∧
    ∀ i, i < lens.length →
      (replay file lens).getD i [] =
        (file.drop ((lens.take i).sum)).take (lens.getD i 0) ∧
      ((replay file lens).getD i []).length = lens.getD i 0 := by
  constructor
  · exact replayAux_length file lens 0
  · intro i hi
    have h0 : 0 + lens.sum ≤ file.length := by omega
    have hg := replayAux_getD file lens 0 i h0 hi
    rw [Nat.zero_add] at hg
    rw [replay]
    refine ⟨hg, ?_⟩
    rw [hg, List.length_take, List.length_drop]
    have := sum_take_getD_le lens i hi
    omega

/-- C4 witness: the theorem at the concrete file `[0,1,2,3,4,5]` with
declared lengths `[2,3]`, checked at frame 1. -/
theorem C4_replay_witness :
    (replay [0,1,2,3,4,5] [2,3]).length = ([2,3] : List Nat).length ∧
    ((replay [0,1,2,3,4,5] [2,3]).getD 1 [] =
      (([0,1,2,3,4,5] : Bytes).drop ((([2,3] : List Nat).take 1).sum)).take
        (([2,3] : List Nat).getD 1 0) ∧
     ((replay [0,1,2,3,4,5] [2,3]).getD 1 []).length =
       ([2,3] : List Nat).getD 1 0) :=
  ⟨(C4_replay (by decide)).1, (C4_replay (by decide)).2 1 (by decide)⟩

/-- C6: in per-record-file mode, a successful `process_packet` appends the
payload to the flow's buffer and writes the buffer's entire new contents —
the cumulative bytes `old ++ frame`, not just the increment — to the file
named `{stem}_{src}_{dst}_{record_index}.vdif`. -/
theorem C6_per_record_write {src dst : Addr} {frame : Bytes} {stem : String}
    {i : Nat} {st st' : St}
    (h : process_packet src dst frame stem true (some i) st = some st') :
    ∃ old, (lookup2 st.cf src dst = some old ∨
        (dlookup src st.cf = none ∧ old = [])) ∧
      lookup2 st'.cf src dst = some (old ++ frame) ∧
      st'.writes = st.writes ++
        [Write.mk (flowStem stem src dst) (some i) (old ++ frame)] ∧
      (Write.mk (flowStem stem src dst) (some i) (old ++ frame)).outname =
        stem ++ "_" ++ ipStr src ++ "_" ++ ipStr dst ++ "_" ++ toString i ++
          ".vdif" := by
  obtain ⟨b, hb, hw, ⟨old, hbo, hor⟩, _, _⟩ := process_packet_some h
  subst hbo
  refine ⟨old, hor, hb, ?_, ?_⟩
  · simpa using hw
  · simp [Write.outname, flowStem, String.append_assoc]

/-- C6 witness: the theorem at a concrete first payload `[5]` for flow
`[1] → [2]`, record index 7, starting from the empty state. -/
theorem C6_per_record_write_witness :
    ∃ old, (lookup2 (St.mk [] []).cf [1] [2] = some old ∨
        (dlookup [1] (St.mk [] []).cf = none ∧ old = [])) ∧
      lookup2 (St.mk [([1], [([2], [5])])]
        [Write.mk (flowStem "cap" [1] [2]) (some 7) [5]]).cf [1] [2] =
        some (old ++ [5]) ∧
      (St.mk [([1], [([2], [5])])]
        [Write.mk (flowStem "cap" [1] [2]) (some 7) [5]]).writes =
        (St.mk [] []).writes ++
          [Write.mk (flowStem "cap" [1] [2]) (some 7) (old ++ [5])] ∧
      (Write.mk (flowStem "cap" [1] [2]) (some 7) (old ++ [5])).outname =
        "cap" ++ "_" ++ ipStr [1] ++ "_" ++ ipStr [2] ++ "_" ++ toString 7 ++
          ".vdif" :=
  C6_per_record_write rfl

/-- C7: for every VDIF file in which some frame's declared byte length would
require reading past end-of-file (the declared lengths exceed the file), the
replayer fails with an error — the external structured decode raises before
anything is sent — rather than transmitting a datagram shorter than its
declared frame length; and whenever the run does reach the send loop, every
transmitted datagram has exactly its declared length, so a short datagram is
never transmitted. -/
theorem C7_decode_guard :
    ∀ (file : Bytes) (lens : List Nat),
      (file.length < lens.sum → mockDbeMain file lens = none) ∧
      (∀ out, mockDbeMain file lens = some out →
        out.length = lens.length ∧
        ∀ i, i < lens.length → (out.getD i []).length = lens.getD i 0) := by
  intro file lens
  constructor
  · intro h
    have hc : ¬ lens.sum ≤ file.length := by omega
    simp [mockDbeMain, read_frameset, hc]
  · intro out hout
    have hcov : lens.sum ≤ file.length ∧ out = replay file lens := by
      by_cases hc : lens.sum ≤ file.length
      · refine ⟨hc, ?_⟩
        simp only [mockDbeMain, read_frameset, if_pos hc,
          Option.some.injEq] at hout
        exact hout.symm
      · simp [mockDbeMain, read_frameset, hc] at hout
    obtain ⟨hc, rfl⟩ := hcov
    constructor
    · exact replayAux_length file lens 0
    · intro i hi
      have h0 : 0 + lens.sum ≤ file.length := by omega
      have hg := replayAux_getD file lens 0 i h0 hi
      rw [Nat.zero_add] at hg
      rw [replay, hg, List.length_take, List.length_drop]
      have := sum_take_getD_le lens i hi
      omega

/-- C7 witness: the 3-byte file `[0,1,2]` with declared lengths `[2,2]`
(overrunning end-of-file) makes the run fail with nothing sent, and on the
covering file `[0,1,2,3,4]` the send loop's second datagram has exactly its
declared length. -/
theorem C7_decode_guard_witness :
    mockDbeMain [0,1,2] [2,2] = none ∧
    ((replay [0,1,2,3,4] [2,2]).getD 1 []).length =
      ([2,2] : List Nat).getD 1 0 :=
  ⟨(C7_decode_guard [0,1,2] [2,2]).1 (by decide),
   ((C7_decode_guard [0,1,2,3,4] [2,2]).2 (replay [0,1,2,3,4] [2,2]) rfl).2 1
     (by decide)⟩

/-- C8: a capture record that is neither loopback/null nor
Ethernet-with-decodable-UDP is skipped by the demultiplexer: the state is
returned unchanged (no flow state touched, no write emitted) and no error is
raised — for `Frame.other` (any unrecognized link kind) and for an Ethernet
frame without decodable UDP alike. -/
theorem C8_skip :
    ∀ (stem : String) (single_vdif : Bool) (i : Nat) (st : St),
      demux_step stem single_vdif i Frame.other st = some st ∧
      demux_step stem single_vdif i (Frame.eth none) st = some st :=
  fun _ _ _ _ => ⟨rfl, rfl⟩

/-- C9: the demultiplexer branch runs iff reassembly was disabled (`-r`) or
the reassembler produced zero completed IPv4 datagrams; and when the
reassembly branch runs (reassembly enabled, at least one datagram) the
result is computed from the datagrams alone — it is the same for every
capture-record list, so no record reaches the demultiplexer. -/
theorem C9_branch :
    ∀ (stem : String) (cfg : Config) (dgrams : List Dgram)
      (frames : List Frame),
      ((cfg.r = true ∨ dgrams = []) →
        mainRun stem cfg dgrams frames =
          finishRun stem cfg.single_vdif
            (demuxRun stem cfg frames (St.mk [] []))) ∧
      (cfg.r = false → dgrams ≠ [] →
        mainRun stem cfg dgrams frames =
          finishRun stem cfg.single_vdif
            (reasmRun stem cfg.single_vdif dgrams (St.mk [] [])) ∧
        ∀ frames', mainRun stem cfg dgrams frames =
          mainRun stem cfg dgrams frames') := by
  intro stem cfg dgrams frames
  constructor
  · intro h
    have hcond : ((!cfg.r) && decide (0 < dgrams.length)) = false := by
      rcases h with h | h
      · simp [h]
      · simp [h]
    simp [mainRun, hcond]
  · intro hr hne
    have hcond : ((!cfg.r) && decide (0 < dgrams.length)) = true := by
      simp [hr, List.length_pos, hne]
    constructor
    · simp [mainRun, hcond]
    · intro frames'
      simp [mainRun, hcond]

/-- C9 witness: the theorem's first part with `-r` set (reassembly disabled)
and the second part with reassembly enabled and one completed datagram. -/
theorem C9_branch_witness :
    (mainRun "cap" (Config.mk true 0 0 false) [] [Frame.other] =
      finishRun "cap" false
        (demuxRun "cap" (Config.mk true 0 0 false) [Frame.other]
          (St.mk [] []))) ∧
    (mainRun "cap" (Config.mk false 0 0 false) [Dgram.mk [1] [2] none]
        [Frame.other] =
      finishRun "cap" false
        (reasmRun "cap" false [Dgram.mk [1] [2] none] (St.mk [] []))) :=
  ⟨(C9_branch "cap" (Config.mk true 0 0 false) [] [Frame.other]).1
      (Or.inl rfl),
   ((C9_branch "cap" (Config.mk false 0 0 false) [Dgram.mk [1] [2] none]
      [Frame.other]).2 rfl (by decide)).1⟩

/-- C10: in the reassembly branch the enumeration index counts every
completed datagram.  A non-UDP datagram at index `i` produces nothing and
raises nothing, yet the remaining datagrams continue from index `i+1`; and a
UDP datagram at index `i` is recorded via `process_packet` with exactly the
ordinal `i` (which C6 shows becomes the filename's record index), so
filenames after a skipped non-UDP datagram carry gapped numbers. -/
theorem C10_ordinal :
    ∀ (stem : String) (single_vdif : Bool) (i : Nat) (d : Dgram)
      (rest : List Dgram) (st : St),
      (d.udp = none →
        runSteps (reasmStep stem single_vdif) i (d :: rest) st =
          runSteps (reasmStep stem single_vdif) (i+1) rest st) ∧
      (∀ p, d.udp = some p →
        runSteps (reasmStep stem single_vdif) i (d :: rest) st =
          (process_packet d.src d.dst p stem (!single_vdif) (some i)
            st).bind (runSteps (reasmStep stem single_vdif) (i+1) rest)) := by
  intro stem sv i d rest st
  constructor
  · intro hu
    rw [runSteps]
    simp [reasmStep, hu]
  · intro p hu
    rw [runSteps]
    simp only [reasmStep, hu]
    cases process_packet d.src d.dst p stem (!sv) (some i) st with
    | none => rfl
    | some st₁ => rfl

/-- C10 witness: a non-UDP datagram at index 0 is skipped and the following
UDP datagram is processed at index 1. -/
theorem C10_ordinal_witness :
    runSteps (reasmStep "cap" false) 0
        [Dgram.mk [1] [2] none, Dgram.mk [3] [4] (some [9])] (St.mk [] []) =
      runSteps (reasmStep "cap" false) 1 [Dgram.mk [3] [4] (some [9])]
        (St.mk [] []) :=
  (C10_ordinal "cap" false 0 (Dgram.mk [1] [2] none)
    [Dgram.mk [3] [4] (some [9])] (St.mk [] [])).1 rfl

/-! ## Single-file mode versus per-record mode -/

theorem writes_const_of_shape {α : Type} {stem : String}
    {f : Nat → α → St → Option St} (hf : StepShape stem false f) :
    ∀ i x st st', f i x st = some st' → st'.writes = st.writes := by
  intro i x st st' h
  rcases hf i x st st' h with heq | ⟨s, d, p, hpp⟩
  · rw [heq]
  · obtain ⟨b, _, hwr, _, _, _⟩ := process_packet_some hpp
    simpa using hwr

/-- Running the same record list in single-file mode (`fT`, writing nothing)
and per-record mode (`fF`, writing through) from the empty state: the dicts
agree, single-file mode writes nothing during the loop, the dict is a
well-formed dict, and per-record mode ends with each flow's last write
holding the flow's buffer. -/
theorem main_pair_core {α : Type} {stem : String}
    {fT fF : Nat → α → St → Option St}
    (hpair : ∀ i x st₁ st₂, st₁.cf = st₂.cf → cfRel (fT i x st₁) (fF i x st₂))
    (hT_shape : StepShape stem false fT)
    (hF_shape : StepShape stem true fF)
    {l : List α} {stPre stM : St}
    (hT : runSteps fT 0 l (St.mk [] []) = some stPre)
    (hF : runSteps fF 0 l (St.mk [] []) = some stM)
    (hinj : FlowInj stem stM.cf) :
    stPre.cf = stM.cf ∧ stPre.writes = [] ∧ CFok stM.cf ∧ Pinv stem stM := by
  have hok0 : CFok (St.mk [] [] : St).cf := by
    constructor
    · exact List.Pairwise.nil
    · intro p hp
      simp at hp
  have hP0 : Pinv stem (St.mk [] []) := by
    intro s d b hb
    simp [lookup2, dlookup] at hb
  refine ⟨?_, ?_, ?_, ?_⟩
  · rcases runSteps_pair hpair l 0 (St.mk [] []) (St.mk [] []) rfl with
      ⟨h1, _⟩ | ⟨a, b, h1, h2, h3⟩
    · rw [hT] at h1
      exact absurd h1 (by simp)
    · rw [hT] at h1
      rw [hF] at h2
      have ha : a = stPre := (Option.some.inj h1).symm
      have hb : b = stM := (Option.some.inj h2).symm
      subst ha
      subst hb
      exact h3
  · exact runSteps_writes (writes_const_of_shape hT_shape) l 0 _ _ hT
  · exact runSteps_cfok hF_shape l 0 _ stM hF hok0
  · exact runSteps_lastwrite hF_shape l 0 _ stM hF hinj hP0

theorem single_flush_tail {stem : String} {stPre stM stS : St} {w : Write}
    (hstS : stS = ⟨stPre.cf, stPre.writes ++ single_writes stem stPre.cf⟩)
    (hwS : stPre.writes = []) (hcf : stPre.cf = stM.cf)
    (hok : CFok stM.cf) (hPinv : Pinv stem stM) (hw : w ∈ stS.writes) :
    w.frame_no = none ∧ w.content ≠ [] ∧
    lastContentFor stM.writes w.file_stem = some w.content := by
  rw [hstS] at hw
  simp only [hwS, List.nil_append] at hw
  rw [hcf] at hw
  obtain ⟨s, d, b, hl, hbne, hwEq⟩ := mem_single_writes hok hw
  subst hwEq
  exact ⟨rfl, hbne, hPinv s d b hl⟩

/-- C5: for every input on which both modes complete (and whose flows have
pairwise-distinct file stems, as dotted-quad IPv4 addresses always do), every
file written in `--single-vdif` mode carries no record-index suffix, is
non-empty, and is byte-identical to the last per-record file that
per-record-file mode writes for the same flow stem on the same input — the
cumulative write for the flow's final record. -/
theorem C5_single_file {stem : String} {cfg : Config} {dgrams : List Dgram}
    {frames : List Frame} {stS stM : St} {w : Write}
    (hS : mainRun stem
      (Config.mk cfg.r cfg.start_packet cfg.num_packets true) dgrams frames =
      some stS)
    (hM : mainRun stem
      (Config.mk cfg.r cfg.start_packet cfg.num_packets false) dgrams frames =
      some stM)
    (hinj : (flows stM.cf).Pairwise
      (fun p q => flowStem stem p.1 p.2 = flowStem stem q.1 q.2 → p = q))
    (hw : w ∈ stS.writes) :
    w.frame_no = none ∧ w.content ≠ [] ∧
    lastContentFor stM.writes w.file_stem = some w.content := by
  have hinj' : FlowInj stem stM.cf := FlowInj_of_pairwise hinj
  simp only [mainRun] at hS hM
  cases hcond : ((!cfg.r) && decide (0 < dgrams.length)) with
  | true =>
    rw [hcond] at hS hM
    simp only [if_true] at hS hM
    obtain ⟨stPre, hb, hstS⟩ := finishRun_true hS
    have hbM := finishRun_false hM
    simp only [reasmRun] at hb hbM
    obtain ⟨hcf, hwS, hok, hPinv⟩ := main_pair_core
      (fun i x st1 st2 hcf => reasmStep_pair hcf stem true false i x)
      (reasmStep_shape stem true) (reasmStep_shape stem false) hb hbM hinj'
    exact single_flush_tail hstS hwS hcf hok hPinv hw
  | false =>
    rw [hcond] at hS hM
    simp only [Bool.false_eq_true, if_false] at hS hM
    obtain ⟨stPre, hb, hstS⟩ := finishRun_true hS
    have hbM := finishRun_false hM
    simp only [demuxRun] at hb hbM
    obtain ⟨hcf, hwS, hok, hPinv⟩ := main_pair_core
      (fun i x st1 st2 hcf =>
        demuxStepW_pair hcf stem true false cfg.start_packet cfg.num_packets
          i x)
      (demuxStepW_shape stem true cfg.start_packet cfg.num_packets)
      (demuxStepW_shape stem false cfg.start_packet cfg.num_packets) hb hbM
      hinj'
    exact single_flush_tail hstS hwS hcf hok hPinv hw

/-- C5 witness: one Ethernet/UDP record for flow `[1] → [2]` with payload
`[9]`; single-file mode writes one index-free file whose bytes equal the last
(here: only) per-record write for the same flow stem. -/
theorem C5_single_file_witness :
    (Write.mk (flowStem "cap" [1] [2]) none [9]).frame_no = none ∧
    (Write.mk (flowStem "cap" [1] [2]) none [9]).content ≠ [] ∧
    lastContentFor
        (St.mk [([1], [([2], [9])])]
          [Write.mk (flowStem "cap" [1] [2]) (some 0) [9]]).writes
        (Write.mk (flowStem "cap" [1] [2]) none [9]).file_stem =
      some (Write.mk (flowStem "cap" [1] [2]) none [9]).content :=
  @C5_single_file "cap" (Config.mk true 0 0 false) []
    [Frame.eth (some ([1], [2], [9]))]
    (St.mk [([1], [([2], [9])])] [Write.mk (flowStem "cap" [1] [2]) none [9]])
    (St.mk [([1], [([2], [9])])]
      [Write.mk (flowStem "cap" [1] [2]) (some 0) [9]])
    (Write.mk (flowStem "cap" [1] [2]) none [9])
    (by rfl) (by rfl) (by simp [flows]) (by simp)
